import Mathlib

/-!
Shallow embedding of src/python/project_threads.py.

Coordinates are modelled with exact rationals (ℚ) in place of Python
floats; integers are modelled with ℕ.  `int(side_size / num_workers)`
on positive integers is Nat floor division.  Inside `get_xy_pairs` the
source reads the module-level variable `num_workers` instead of its
parameter `workers`; at the only call site the two are equal, so the
embedding uses the single parameter `workers` for both occurrences.
-/

namespace Mandelbrot

/-- One loop iteration block of `mandelbrodt_pixel` (lines 16-26): the
`while counter <= steps` loop runs on fuel `steps + 1`.  Each pass
squares the current `re_z`, `im_z`, updates `z ← z² + c`, and then
tests the pre-update squares against the escape threshold 4. -/
def mandelbrodt_go (x y : ℚ) : ℕ → ℚ → ℚ → Bool
  | 0, _, _ => true
  | fuel + 1, re_z, im_z =>
    let re_z_square := re_z ^ 2
    let im_z_square := im_z ^ 2
    let re_next := re_z_square - im_z_square + x
    let im_next := 2 * re_z * im_z + y
    if re_z_square + im_z_square ≥ 4 then false
    else mandelbrodt_go x y fuel re_next im_next

/-- `mandelbrodt_pixel(x, y, steps)` (lines 11-27): start from
`z = 0`, run the loop while `counter <= steps`, i.e. `steps + 1`
iterations. -/
def mandelbrodt_pixel (x y : ℚ) (steps : ℕ) : Bool :=
  mandelbrodt_go x y (steps + 1) 0 0

/-- The mathematical iterate sequence `z_0 = 0`, `z_{k+1} = z_k² + c`
with `c = x + iy`, as (real, imaginary) pairs. -/
def mandelZ (x y : ℚ) : ℕ → ℚ × ℚ
  | 0 => (0, 0)
  | k + 1 =>
    let z := mandelZ x y k
    (z.1 ^ 2 - z.2 ^ 2 + x, 2 * z.1 * z.2 + y)

/-- `mandelbrodt_job` (lines 30-36): classify every sample of a band in
band order, recording `[x, y, int(member)]`.  The per-worker write
`return_dict[procnum] = return_list` is modelled by returning the list;
`run_workers` below places it at position `procnum`. -/
def mandelbrodt_job (xy_values : List (ℚ × ℚ)) (steps : ℕ) : List (ℚ × ℚ × ℕ) :=
  xy_values.map fun p => (p.1, p.2, if mandelbrodt_pixel p.1 p.2 steps then 1 else 0)

/-- The endpoint swap of `get_xy_pairs` (lines 57-59 and 62-64): if
min > max the endpoints are exchanged. -/
def oriented (r : ℚ × ℚ) : ℚ × ℚ :=
  if r.1 > r.2 then (r.2, r.1) else r

/-- The i-th generated coordinate `min + i * step` with
`step = (max - min) / side_size` (lines 60, 65, 67, 68). -/
def grid_val (r : ℚ × ℚ) (side_size : ℕ) (i : ℕ) : ℚ :=
  (oriented r).1 + i * (((oriented r).2 - (oriented r).1) / side_size)

/-- The coordinate sequence `[min + i*step for i in range(side_size)]`
(lines 67-68). -/
def grid_values (r : ℚ × ℚ) (side_size : ℕ) : List ℚ :=
  (List.range side_size).map (grid_val r side_size)

/-- `get_xy_pairs` (lines 56-76): generate `x_values`/`y_values`, cut
the x-values into `workers` slices of length `interval_len =
int(side_size / workers)` (Python slice `[i*L : (i+1)*L]` is
`drop (i*L)` then `take L`), and cross each slice with the whole
`y_values` sequence, outer loop on x, inner loop on y. -/
def get_xy_pairs (workers : ℕ) (side_size : ℕ) (xrange yrange : ℚ × ℚ) :
    List (List (ℚ × ℚ)) :=
  let x_values := grid_values xrange side_size
  let y_values := grid_values yrange side_size
  let interval_len := side_size / workers
  (List.range workers).map fun i =>
    ((x_values.drop (i * interval_len)).take interval_len).flatMap fun x =>
      y_values.map fun y => (x, y)

/-- The dispatch/join of `__main__` (lines 121-128): worker `i` runs
`mandelbrodt_job` on band `i` and stores its result under key `i`.
Workers write disjoint keys, so the joined Result Collection is the
deterministic list of per-band results indexed by band. -/
def run_workers (bands : List (List (ℚ × ℚ))) (steps : ℕ) : List (List (ℚ × ℚ × ℕ)) :=
  bands.map fun band => mandelbrodt_job band steps

/-- `np.unique(arr)`: the distinct values of `arr` in ascending order
(line 41). -/
def np_unique {α : Type} [LinearOrder α] [DecidableEq α] (arr : List α) : List α :=
  (arr.dedup).insertionSort (· ≤ ·)

/-- `np.argsort(unique)` (line 42): the stable ascending argsort, i.e.
the positions `range (len l)` sorted by value with ties broken by
position. -/
def np_argsort (l : List ℚ) : List ℕ :=
  (List.range l.length).insertionSort fun i j =>
    l.getD i 0 < l.getD j 0 ∨ (l.getD i 0 = l.getD j 0 ∧ i ≤ j)

/-- `get_ranks` (lines 40-43): map every element of `arr` to
`ranks[np.where(unique == element)]` and flatten (`ravel`). -/
def get_ranks (arr : List ℚ) : List ℕ :=
  let unique := np_unique arr
  let ranks := np_argsort unique
  arr.flatMap fun element =>
    ((List.range unique.length).filter fun i => unique.getD i 0 = element).map
      fun i => ranks.getD i 0

/-- `draw_fractal` (lines 39-53), without the file write: the image
size is `(len(np.unique(x_ranks)), len(np.unique(y_ranks)))` and a
pixel is painted white exactly when some classification row with a
truthy color lands on it (constant color, so last-write-wins equals
any-write). -/
def draw_fractal (fractal_list : List (ℚ × ℚ × ℕ)) : (ℕ × ℕ) × ((ℕ × ℕ) → Bool) :=
  let x := get_ranks (fractal_list.map fun row => row.1)
  let y := get_ranks (fractal_list.map fun row => row.2.1)
  let color := fractal_list.map fun row => row.2.2
  (((np_unique x).length, (np_unique y).length),
    fun p => ((x.zip y).zip color).any fun row => row.2 ≠ 0 ∧ row.1 = p)

/-! ### Lemmas about the escape-time loop -/

theorem mandelbrodt_go_succ (x y : ℚ) (fuel : ℕ) (a b : ℚ) :
    mandelbrodt_go x y (fuel + 1) a b =
      if 4 ≤ a ^ 2 + b ^ 2 then false
      else mandelbrodt_go x y fuel (a ^ 2 - b ^ 2 + x) (2 * a * b + y) :=
  rfl

theorem mandelZ_succ (x y : ℚ) (k : ℕ) :
    mandelZ x y (k + 1) =
      ((mandelZ x y k).1 ^ 2 - (mandelZ x y k).2 ^ 2 + x,
        2 * (mandelZ x y k).1 * (mandelZ x y k).2 + y) :=
  rfl

theorem mandelbrodt_go_false_iff (x y : ℚ) :
    ∀ (fuel m : ℕ),
      (mandelbrodt_go x y fuel (mandelZ x y m).1 (mandelZ x y m).2 = false ↔
        ∃ j, j < fuel ∧ 4 ≤ (mandelZ x y (m + j)).1 ^ 2 + (mandelZ x y (m + j)).2 ^ 2)
  | 0, m => by simp [mandelbrodt_go]
  | fuel + 1, m => by
    rw [mandelbrodt_go_succ]
    by_cases h : (4 : ℚ) ≤ (mandelZ x y m).1 ^ 2 + (mandelZ x y m).2 ^ 2
    · simp only [h, if_true, true_iff]
      exact ⟨0, Nat.succ_pos _, by simpa using h⟩
    · rw [if_neg h]
      have hz1 : (mandelZ x y m).1 ^ 2 - (mandelZ x y m).2 ^ 2 + x = (mandelZ x y (m + 1)).1 := by
        rw [mandelZ_succ]
      have hz2 : 2 * (mandelZ x y m).1 * (mandelZ x y m).2 + y = (mandelZ x y (m + 1)).2 := by
        rw [mandelZ_succ]
      rw [hz1, hz2, mandelbrodt_go_false_iff x y fuel (m + 1)]
      constructor
      · rintro ⟨j, hj, hesc⟩
        refine ⟨j + 1, Nat.succ_lt_succ hj, ?_⟩
        have : m + 1 + j = m + (j + 1) := by omega
        rwa [this] at hesc
      · rintro ⟨j, hj, hesc⟩
        match j with
        | 0 => exact absurd (by simpa using hesc) h
        | j + 1 =>
          refine ⟨j, Nat.lt_of_succ_lt_succ hj, ?_⟩
          have : m + 1 + j = m + (j + 1) := by omega
          rwa [this]

theorem mandelbrodt_pixel_false_iff (x y : ℚ) (steps : ℕ) :
    mandelbrodt_pixel x y steps = false ↔
      ∃ k, k ≤ steps ∧ 4 ≤ (mandelZ x y k).1 ^ 2 + (mandelZ x y k).2 ^ 2 := by
  have h := mandelbrodt_go_false_iff x y (steps + 1) 0
  simp only [Nat.zero_add, Nat.lt_succ_iff] at h
  exact h

/-- C3: for every point `(x, y)` and every positive `steps`, the
classifier runs the `z ← z² + c` loop on fuel `steps + 1` (one attempt
per `counter = 0, …, steps`, testing the pre-update iterate each
time), and it returns `false` exactly when some iterate `z_k` with
`0 ≤ k ≤ steps` has `|z_k|² ≥ 4`; equivalently it returns `true`
exactly when every iterate `z_0, …, z_steps` stays strictly inside
radius 2.  The fuel-indexed recursion terminates structurally, so the
function always terminates within `steps + 1` iterations. -/
theorem mandelbrodt_pixel_escape_iff (x y : ℚ) (steps : ℕ) (hsteps : 1 ≤ steps) :
    (mandelbrodt_pixel x y steps = false ↔
      ∃ k, k ≤ steps ∧ 4 ≤ (mandelZ x y k).1 ^ 2 + (mandelZ x y k).2 ^ 2) ∧
    (mandelbrodt_pixel x y steps = true ↔
      ∀ k, k ≤ steps → (mandelZ x y k).1 ^ 2 + (mandelZ x y k).2 ^ 2 < 4) := by
  constructor
  · exact mandelbrodt_pixel_false_iff x y steps
  · constructor
    · intro htrue k hk
      by_contra hge
      have hfalse : mandelbrodt_pixel x y steps = false :=
        (mandelbrodt_pixel_false_iff x y steps).mpr ⟨k, hk, le_of_not_lt hge⟩
      rw [htrue] at hfalse
      exact Bool.noConfusion hfalse
    · intro hall
      cases hb : mandelbrodt_pixel x y steps
      · obtain ⟨k, hk, hge⟩ := (mandelbrodt_pixel_false_iff x y steps).mp hb
        exact absurd hge (not_le.mpr (hall k hk))
      · rfl

theorem mandelbrodt_pixel_escape_iff_witness :
    1 ≤ 1 ∧
    ((mandelbrodt_pixel 2 2 1 = false ↔
      ∃ k, k ≤ 1 ∧ 4 ≤ (mandelZ 2 2 k).1 ^ 2 + (mandelZ 2 2 k).2 ^ 2) ∧
    (mandelbrodt_pixel 2 2 1 = true ↔
      ∀ k, k ≤ 1 → (mandelZ 2 2 k).1 ^ 2 + (mandelZ 2 2 k).2 ^ 2 < 4)) :=
  ⟨Nat.le_refl 1, mandelbrodt_pixel_escape_iff 2 2 1 (Nat.le_refl 1)⟩

/-- C4 counterexample: `(2, 2)` satisfies `x² + y² ≥ 4`, yet at
`steps = 0` the classifier returns `true`, not `false` as claimed: the
single loop pass only tests the squares of `z_0 = 0`. -/
theorem mandelbrodt_pixel_steps_zero_counterexample :
    4 ≤ (2 : ℚ) ^ 2 + (2 : ℚ) ^ 2 ∧ mandelbrodt_pixel 2 2 0 = true := by
  constructor
  · norm_num
  · rw [mandelbrodt_pixel, mandelbrodt_go_succ]
    norm_num [mandelbrodt_go]

/-- C4 amended: with `steps = 0` the classifier returns `true` for
every sample, because the only tested iterate is `z_0 = 0`; for every
`steps ≥ 1`, every sample with `x² + y² ≥ 4` returns `false` (the
second pass tests `z_1 = c`); `(0, 0)` returns `true` for every
`steps`; and `(2, 2)` returns `false` from `steps = 1` on. -/
theorem mandelbrodt_pixel_escape_amended :
    (∀ x y : ℚ, mandelbrodt_pixel x y 0 = true) ∧
    (∀ x y : ℚ, 4 ≤ x ^ 2 + y ^ 2 → ∀ steps, 1 ≤ steps →
      mandelbrodt_pixel x y steps = false) ∧
    (∀ steps, mandelbrodt_pixel 0 0 steps = true) ∧
    mandelbrodt_pixel 2 2 1 = false := by
  have hz1 : ∀ x y : ℚ, mandelZ x y 1 = (x, y) := by
    intro x y
    rw [mandelZ_succ]
    show ((0 : ℚ) ^ 2 - (0 : ℚ) ^ 2 + x, 2 * 0 * 0 + y) = (x, y)
    norm_num
  have hescape : ∀ x y : ℚ, 4 ≤ x ^ 2 + y ^ 2 → ∀ steps, 1 ≤ steps →
      mandelbrodt_pixel x y steps = false := by
    intro x y hxy steps hsteps
    rw [mandelbrodt_pixel_false_iff]
    exact ⟨1, hsteps, by rw [hz1]; exact hxy⟩
  refine ⟨?_, hescape, ?_, hescape 2 2 (by norm_num) 1 (Nat.le_refl 1)⟩
  · intro x y
    rw [mandelbrodt_pixel, mandelbrodt_go_succ]
    norm_num [mandelbrodt_go]
  · intro steps
    have hzero : ∀ k, mandelZ 0 0 k = (0, 0) := by
      intro k
      induction k with
      | zero => rfl
      | succ k ih => rw [mandelZ_succ, ih]; norm_num
    rw [← Bool.not_eq_false, not_iff_not.mpr (mandelbrodt_pixel_false_iff 0 0 steps)]
    push_neg
    intro k _
    rw [hzero k]
    norm_num

theorem mandelbrodt_pixel_escape_amended_witness :
    4 ≤ (2 : ℚ) ^ 2 + (2 : ℚ) ^ 2 ∧ 1 ≤ 1 ∧ mandelbrodt_pixel 2 2 1 = false :=
  ⟨by norm_num, Nat.le_refl 1,
    mandelbrodt_pixel_escape_amended.2.1 2 2 (by norm_num) 1 (Nat.le_refl 1)⟩

/-! ### Grid generator -/

theorem grid_values_length (r : ℚ × ℚ) (n : ℕ) : (grid_values r n).length = n := by
  simp [grid_values]

theorem grid_values_getD (r : ℚ × ℚ) (n : ℕ) (i : ℕ) (hi : i < n) :
    (grid_values r n).getD i 0 =
      (oriented r).1 + i * (((oriented r).2 - (oriented r).1) / n) := by
  rw [List.getD_eq_getElem _ _ (by simpa [grid_values] using hi)]
  simp [grid_values, grid_val]

/-- C5: for every `side_size ≥ 1`, both generated coordinate
sequences have exactly `side_size` entries, entry `i` equals
`min + i * step` with `step = (max - min) / side_size` computed after
swapping the endpoints whenever min > max, and when max > min the max
endpoint itself never occurs among the generated values (half-open
stepping, not an inclusive linspace). -/
theorem grid_values_spec (n : ℕ) (hn : 1 ≤ n) (r : ℚ × ℚ) :
    (grid_values r n).length = n ∧
    (∀ i, i < n → (grid_values r n).getD i 0 =
      (oriented r).1 + i * (((oriented r).2 - (oriented r).1) / n)) ∧
    (r.1 > r.2 → oriented r = (r.2, r.1)) ∧
    (¬r.1 > r.2 → oriented r = r) ∧
    ((oriented r).1 < (oriented r).2 → (oriented r).2 ∉ grid_values r n) := by
  refine ⟨grid_values_length r n, fun i hi => grid_values_getD r n i hi, ?_, ?_, ?_⟩
  · intro h; simp [oriented, h]
  · intro h; simp [oriented, h]
  · intro hlt hmem
    simp only [grid_values, List.mem_map, List.mem_range] at hmem
    obtain ⟨i, hi, heq⟩ := hmem
    rw [grid_val] at heq
    set d : ℚ := (oriented r).2 - (oriented r).1 with hd
    have hdpos : 0 < d := by rw [hd]; linarith
    have hn0 : ((n : ℚ)) ≠ 0 := by
      exact_mod_cast Nat.one_le_iff_ne_zero.mp hn
    have hstep : (0 : ℚ) < d / n := by
      apply div_pos hdpos
      exact_mod_cast Nat.lt_of_lt_of_le Nat.zero_lt_one hn
    have hkey : (i : ℚ) * (d / n) = (n : ℚ) * (d / n) := by
      have hnd : (n : ℚ) * (d / n) = d := by
        field_simp
      rw [hnd]
      linarith [heq]
    have : (i : ℚ) = (n : ℚ) := mul_right_cancel₀ (ne_of_gt hstep) hkey
    have : i = n := by exact_mod_cast this
    omega

theorem grid_values_spec_witness :
    1 ≤ 4 ∧
    ((grid_values ((-2 : ℚ), 1) 4).length = 4 ∧
    (∀ i, i < 4 → (grid_values ((-2 : ℚ), 1) 4).getD i 0 =
      (oriented ((-2 : ℚ), 1)).1 +
        i * (((oriented ((-2 : ℚ), 1)).2 - (oriented ((-2 : ℚ), 1)).1) / 4)) ∧
    (((-2 : ℚ), (1 : ℚ)).1 > ((-2 : ℚ), (1 : ℚ)).2 →
      oriented ((-2 : ℚ), 1) = (1, -2)) ∧
    (¬((-2 : ℚ), (1 : ℚ)).1 > ((-2 : ℚ), (1 : ℚ)).2 →
      oriented ((-2 : ℚ), 1) = (-2, 1)) ∧
    ((oriented ((-2 : ℚ), 1)).1 < (oriented ((-2 : ℚ), 1)).2 →
      (oriented ((-2 : ℚ), 1)).2 ∉ grid_values ((-2 : ℚ), 1) 4)) :=
  ⟨by norm_num, grid_values_spec 4 (by norm_num) ((-2 : ℚ), 1)⟩

/-! ### Band partitioner -/

theorem slice_range (s t n : ℕ) (h : s + t ≤ n) :
    ((List.range n).drop s).take t = (List.range t).map fun a => s + a := by
  apply List.ext_getElem
  · simp
    omega
  · intro i h1 h2
    have hi : i < t := by
      simpa using h2
    rw [List.getElem_take, List.getElem_drop, List.getElem_range,
      List.getElem_map, List.getElem_range]

theorem band_indices_flatten (W L : ℕ) :
    ((List.range W).flatMap fun i => (List.range L).map fun a => i * L + a) =
      List.range (W * L) := by
  induction W with
  | zero => simp
  | succ W ih =>
    rw [List.range_succ, List.flatMap_append, ih, Nat.succ_mul, List.range_add]
    congr 1
    rw [List.flatMap_singleton]

theorem get_xy_pairs_length (W n : ℕ) (xr yr : ℚ × ℚ) :
    (get_xy_pairs W n xr yr).length = W := by
  simp [get_xy_pairs]

theorem get_xy_pairs_def (W n : ℕ) (xr yr : ℚ × ℚ) :
    get_xy_pairs W n xr yr =
      (List.range W).map fun i =>
        (((grid_values xr n).drop (i * (n / W))).take (n / W)).flatMap fun x =>
          (grid_values yr n).map fun y => (x, y) :=
  rfl

theorem get_xy_pairs_band (W n : ℕ) (xr yr : ℚ × ℚ) (i : ℕ) (hi : i < W) :
    (get_xy_pairs W n xr yr).getD i [] =
      ((List.range (n / W)).map fun a => i * (n / W) + a).flatMap fun j =>
        (List.range n).map fun k => (grid_val xr n j, grid_val yr n k) := by
  have hlen : i < (get_xy_pairs W n xr yr).length := by
    rwa [get_xy_pairs_length]
  rw [List.getD_eq_getElem _ _ hlen]
  have hine : i * (n / W) + n / W ≤ n := by
    have h1 : (i + 1) * (n / W) ≤ W * (n / W) :=
      Nat.mul_le_mul_right _ (Nat.succ_le_of_lt hi)
    have h2 : W * (n / W) ≤ n := by
      rw [Nat.mul_comm]
      exact Nat.div_mul_le_self n W
    calc i * (n / W) + n / W = (i + 1) * (n / W) := by ring
    _ ≤ W * (n / W) := h1
    _ ≤ n := h2
  simp only [get_xy_pairs_def, List.getElem_map, List.getElem_range]
  rw [grid_values, ← List.map_drop, ← List.map_take, slice_range _ _ _ hine,
    List.map_map, List.flatMap_map, List.flatMap_map]
  apply List.flatMap_congr
  intro j _
  rw [grid_values, List.map_map]
  rfl

/-- C1: for `W ≥ 1` dividing `side_size`, `get_xy_pairs` returns `W`
bands; band `i` is exactly the x-values with indices
`[i*L, (i+1)*L)`, `L = side_size / W`, crossed with the entire
y-value sequence (outer loop on x, inner loop on y, both ascending);
and the concatenation of the bands' x-index ranges is precisely
`[0, side_size)` — no index missing, none in two bands. -/
theorem get_xy_pairs_partition_divisible (W n : ℕ) (xr yr : ℚ × ℚ)
    (hW : 1 ≤ W) (hdvd : W ∣ n) :
    (get_xy_pairs W n xr yr).length = W ∧
    (∀ i, i < W → (get_xy_pairs W n xr yr).getD i [] =
      ((List.range (n / W)).map fun a => i * (n / W) + a).flatMap fun j =>
        (List.range n).map fun k => (grid_val xr n j, grid_val yr n k)) ∧
    ((List.range W).flatMap fun i =>
        (List.range (n / W)).map fun a => i * (n / W) + a) = List.range n := by
  refine ⟨get_xy_pairs_length W n xr yr,
    fun i hi => get_xy_pairs_band W n xr yr i hi, ?_⟩
  rw [band_indices_flatten, Nat.mul_div_cancel' hdvd]

theorem get_xy_pairs_partition_divisible_witness :
    1 ≤ 2 ∧ 2 ∣ 4 ∧
    ((get_xy_pairs 2 4 ((-2 : ℚ), 1) ((-3/2 : ℚ), 3/2)).length = 2 ∧
    (∀ i, i < 2 → (get_xy_pairs 2 4 ((-2 : ℚ), 1) ((-3/2 : ℚ), 3/2)).getD i [] =
      ((List.range (4 / 2)).map fun a => i * (4 / 2) + a).flatMap fun j =>
        (List.range 4).map fun k =>
          (grid_val ((-2 : ℚ), 1) 4 j, grid_val ((-3/2 : ℚ), 3/2) 4 k)) ∧
    ((List.range 2).flatMap fun i =>
        (List.range (4 / 2)).map fun a => i * (4 / 2) + a) = List.range 4) :=
  ⟨by norm_num, ⟨2, rfl⟩,
    get_xy_pairs_partition_divisible 2 4 ((-2 : ℚ), 1) ((-3/2 : ℚ), 3/2)
      (by norm_num) ⟨2, rfl⟩⟩

theorem count_range_eq (j m : ℕ) :
    (List.range m).count j = if j < m then 1 else 0 := by
  by_cases h : j < m
  · rw [if_pos h]
    exact List.nodup_iff_count_eq_one.mp (List.nodup_range m) j (List.mem_range.mpr h)
  · rw [if_neg h]
    exact List.count_eq_zero_of_not_mem fun hm => h (List.mem_range.mp hm)

/-- C2: for `W ≥ 1` not dividing `side_size`, the bands still have
the slice-times-full-y shape, but the concatenated x-index ranges
cover only `[0, side_size - side_size % W)`: each of those indices
appears in exactly one band, and the `side_size % W > 0` trailing
x-indices appear in no band.  The embedding is a total function: the
source raises nothing on this path, the truncation is silent. -/
theorem get_xy_pairs_truncation (W n : ℕ) (xr yr : ℚ × ℚ)
    (hW : 1 ≤ W) (hnd : ¬W ∣ n) :
    (get_xy_pairs W n xr yr).length = W ∧
    (∀ i, i < W → (get_xy_pairs W n xr yr).getD i [] =
      ((List.range (n / W)).map fun a => i * (n / W) + a).flatMap fun j =>
        (List.range n).map fun k => (grid_val xr n j, grid_val yr n k)) ∧
    0 < n % W ∧
    (∀ j, j < n →
      ((List.range W).flatMap fun i =>
          (List.range (n / W)).map fun a => i * (n / W) + a).count j =
        if j < n - n % W then 1 else 0) := by
  have hmod : 0 < n % W := by
    rcases Nat.eq_zero_or_pos (n % W) with h0 | hpos
    · exact absurd (Nat.dvd_iff_mod_eq_zero.mpr h0) hnd
    · exact hpos
  have hWL : W * (n / W) = n - n % W := by
    have := Nat.div_add_mod n W
    omega
  refine ⟨get_xy_pairs_length W n xr yr,
    fun i hi => get_xy_pairs_band W n xr yr i hi, hmod, ?_⟩
  intro j _
  rw [band_indices_flatten, count_range_eq, hWL]

theorem get_xy_pairs_truncation_witness :
    1 ≤ 3 ∧ ¬(3 : ℕ) ∣ 4 ∧
    ((get_xy_pairs 3 4 ((-2 : ℚ), 1) ((-3/2 : ℚ), 3/2)).length = 3 ∧
    (∀ i, i < 3 → (get_xy_pairs 3 4 ((-2 : ℚ), 1) ((-3/2 : ℚ), 3/2)).getD i [] =
      ((List.range (4 / 3)).map fun a => i * (4 / 3) + a).flatMap fun j =>
        (List.range 4).map fun k =>
          (grid_val ((-2 : ℚ), 1) 4 j, grid_val ((-3/2 : ℚ), 3/2) 4 k)) ∧
    0 < 4 % 3 ∧
    (∀ j, j < 4 →
      ((List.range 3).flatMap fun i =>
          (List.range (4 / 3)).map fun a => i * (4 / 3) + a).count j =
        if j < 4 - 4 % 3 then 1 else 0)) :=
  ⟨by norm_num, by decide,
    get_xy_pairs_truncation 3 4 ((-2 : ℚ), 1) ((-3/2 : ℚ), 3/2) (by norm_num) (by decide)⟩

/-- C10: when `1 ≤ side_size < W` the per-band slice length
`int(side_size / W)` is 0, so every returned band is empty, and no
sample is ever classified by the workers. -/
theorem get_xy_pairs_all_bands_empty (W n : ℕ) (xr yr : ℚ × ℚ)
    (h1 : 1 ≤ n) (h2 : n < W) :
    (get_xy_pairs W n xr yr).length = W ∧
    n / W = 0 ∧
    (∀ band ∈ get_xy_pairs W n xr yr, band = ([] : List (ℚ × ℚ))) ∧
    ∀ steps, (run_workers (get_xy_pairs W n xr yr) steps).flatten = [] := by
  have hL : n / W = 0 := Nat.div_eq_of_lt h2
  have hempty : ∀ band ∈ get_xy_pairs W n xr yr, band = ([] : List (ℚ × ℚ)) := by
    intro band hband
    rw [get_xy_pairs_def] at hband
    obtain ⟨i, _, rfl⟩ := List.mem_map.mp hband
    rw [hL]
    simp
  refine ⟨get_xy_pairs_length W n xr yr, hL, hempty, ?_⟩
  intro steps
  rw [List.flatten_eq_nil_iff]
  intro l hl
  obtain ⟨band, hband, rfl⟩ := List.mem_map.mp hl
  rw [hempty band hband]
  rfl

theorem get_xy_pairs_all_bands_empty_witness :
    1 ≤ 2 ∧ 2 < 5 ∧
    ((get_xy_pairs 5 2 ((-2 : ℚ), 1) ((-3/2 : ℚ), 3/2)).length = 5 ∧
    2 / 5 = 0 ∧
    (∀ band ∈ get_xy_pairs 5 2 ((-2 : ℚ), 1) ((-3/2 : ℚ), 3/2),
      band = ([] : List (ℚ × ℚ))) ∧
    ∀ steps,
      (run_workers (get_xy_pairs 5 2 ((-2 : ℚ), 1) ((-3/2 : ℚ), 3/2)) steps).flatten = []) :=
  ⟨by norm_num, by norm_num,
    get_xy_pairs_all_bands_empty 5 2 ((-2 : ℚ), 1) ((-3/2 : ℚ), 3/2)
      (by norm_num) (by norm_num)⟩

/-! ### Worker dispatch and aggregation -/

theorem sum_map_const_range (W c : ℕ) :
    ((List.range W).map fun _ => c).sum = W * c := by
  induction W with
  | zero => simp
  | succ W ih =>
    rw [List.range_succ, List.map_append, List.sum_append, ih]
    simp
    ring

theorem get_xy_pairs_band_length (W n : ℕ) (xr yr : ℚ × ℚ) (i : ℕ) (hi : i < W) :
    ((get_xy_pairs W n xr yr).getD i []).length = n / W * n := by
  rw [get_xy_pairs_band W n xr yr i hi, List.length_flatMap, List.map_map]
  have hconst : ((List.range (n / W)).map
      ((List.length ∘ fun j => (List.range n).map fun k =>
        (grid_val xr n j, grid_val yr n k)) ∘ fun a => i * (n / W) + a)) =
      (List.range (n / W)).map fun _ => n := by
    apply List.map_congr_left
    intro a _
    simp
  rw [hconst, sum_map_const_range]

/-- C6: modelling the joined Result Collection as the list of per-band
results indexed by band (each worker writes only its own key), the
collection has exactly `W` entries; entry `i` is `mandelbrodt_job` of
band `i`, i.e. one classification triple per sample of the band in
band order; and the total number of classification results is
`int(side_size / W) * W * side_size` — the truncated x-count times the
full y-count, with nothing lost or duplicated. -/
theorem run_workers_aggregation (W n steps : ℕ) (xr yr : ℚ × ℚ) (hW : 1 ≤ W) :
    (run_workers (get_xy_pairs W n xr yr) steps).length = W ∧
    (∀ i, i < W →
      (run_workers (get_xy_pairs W n xr yr) steps).getD i [] =
        mandelbrodt_job ((get_xy_pairs W n xr yr).getD i []) steps) ∧
    ((run_workers (get_xy_pairs W n xr yr) steps).map List.length).sum =
      n / W * W * n := by
  have hlen : (run_workers (get_xy_pairs W n xr yr) steps).length = W := by
    simp [run_workers, get_xy_pairs_length]
  refine ⟨hlen, ?_, ?_⟩
  · intro i hi
    have hb : i < (get_xy_pairs W n xr yr).length := by
      rwa [get_xy_pairs_length]
    have hr : i < (run_workers (get_xy_pairs W n xr yr) steps).length := by
      rwa [hlen]
    rw [List.getD_eq_getElem _ _ hr, List.getD_eq_getElem _ _ hb]
    simp [run_workers]
  · have hmap : (run_workers (get_xy_pairs W n xr yr) steps).map List.length =
        (List.range W).map fun _ => n / W * n := by
      apply List.ext_getElem
      · simp [run_workers, get_xy_pairs_length]
      · intro i h1 h2
        have hi : i < W := by simpa using h2
        have hb : i < (get_xy_pairs W n xr yr).length := by
          rwa [get_xy_pairs_length]
        simp only [run_workers, List.map_map, List.getElem_map, List.getElem_range]
        show (mandelbrodt_job ((get_xy_pairs W n xr yr)[i]) steps).length = n / W * n
        rw [mandelbrodt_job, List.length_map, ← List.getD_eq_getElem _ ([]) hb,
          get_xy_pairs_band_length W n xr yr i hi]
    rw [hmap, sum_map_const_range]
    ring

theorem run_workers_aggregation_witness :
    1 ≤ 2 ∧
    ((run_workers (get_xy_pairs 2 4 ((-2 : ℚ), 1) ((-3/2 : ℚ), 3/2)) 1).length = 2 ∧
    (∀ i, i < 2 →
      (run_workers (get_xy_pairs 2 4 ((-2 : ℚ), 1) ((-3/2 : ℚ), 3/2)) 1).getD i [] =
        mandelbrodt_job
          ((get_xy_pairs 2 4 ((-2 : ℚ), 1) ((-3/2 : ℚ), 3/2)).getD i []) 1) ∧
    ((run_workers (get_xy_pairs 2 4 ((-2 : ℚ), 1) ((-3/2 : ℚ), 3/2)) 1).map
        List.length).sum = 4 / 2 * 2 * 4) :=
  ⟨by norm_num,
    run_workers_aggregation 2 4 1 ((-2 : ℚ), 1) ((-3/2 : ℚ), 3/2) (by norm_num)⟩

/-! ### Rank mapping -/

theorem np_unique_sorted {α : Type} [LinearOrder α] [DecidableEq α] (arr : List α) :
    (np_unique arr).Sorted (· ≤ ·) :=
  List.sorted_insertionSort _ _

theorem np_unique_perm {α : Type} [LinearOrder α] [DecidableEq α] (arr : List α) :
    (np_unique arr).Perm arr.dedup :=
  List.perm_insertionSort _ _

theorem np_unique_nodup {α : Type} [LinearOrder α] [DecidableEq α] (arr : List α) :
    (np_unique arr).Nodup :=
  (np_unique_perm arr).nodup_iff.mpr (List.nodup_dedup arr)

theorem np_unique_mem {α : Type} [LinearOrder α] [DecidableEq α] (arr : List α) (a : α) :
    a ∈ np_unique arr ↔ a ∈ arr :=
  (np_unique_perm arr).mem_iff.trans List.mem_dedup

theorem np_unique_sorted_lt {α : Type} [LinearOrder α] [DecidableEq α] (arr : List α) :
    (np_unique arr).Sorted (· < ·) :=
  ((np_unique_sorted arr).and (np_unique_nodup arr)).imp fun hab =>
    lt_of_le_of_ne hab.1 hab.2

theorem np_argsort_of_sorted (l : List ℚ) (hl : l.Sorted (· < ·)) :
    np_argsort l = List.range l.length := by
  rw [np_argsort]
  apply List.Sorted.insertionSort_eq
  rw [List.Sorted, List.pairwise_iff_getElem]
  intro i j hi hj hij
  rw [List.length_range] at hi hj
  rw [List.getElem_range, List.getElem_range]
  left
  rw [List.getD_eq_getElem _ _ hi, List.getD_eq_getElem _ _ hj]
  exact (List.pairwise_iff_getElem.mp hl) i j hi hj hij

theorem filter_range_eq_single (p : ℕ → Bool) (k : ℕ) :
    ∀ m : ℕ, k < m → (∀ i, i < m → (p i = true ↔ i = k)) →
      (List.range m).filter p = [k]
  | 0, hk, _ => absurd hk (Nat.not_lt_zero k)
  | m + 1, hk, hp => by
    rw [List.range_succ, List.filter_append]
    by_cases hkm : k = m
    · subst hkm
      have h1 : (List.range k).filter p = [] := by
        rw [List.filter_eq_nil_iff]
        intro a ha hpa
        have halt : a < k := List.mem_range.mp ha
        have : a = k := (hp a (Nat.lt_succ_of_lt halt)).mp hpa
        omega
      have h2 : p k = true := (hp k (Nat.lt_succ_self k)).mpr rfl
      rw [h1, List.filter_cons, if_pos h2]
      rfl
    · have hk2 : k < m := by omega
      have h1 : (List.range m).filter p = [k] :=
        filter_range_eq_single p k m hk2 fun i hi => hp i (Nat.lt_succ_of_lt hi)
      have h2 : ¬p m = true := by
        intro hpm
        exact hkm ((hp m (Nat.lt_succ_self m)).mp hpm).symm
      rw [h1, List.filter_cons, if_neg h2, List.filter_nil, List.append_nil]

theorem get_ranks_eq_map_indexOf (arr : List ℚ) :
    get_ranks arr = arr.map fun e => (np_unique arr).indexOf e := by
  have hstep : ∀ e ∈ arr,
      (((List.range (np_unique arr).length).filter fun i =>
          (np_unique arr).getD i 0 = e).map
        fun i => (np_argsort (np_unique arr)).getD i 0) = [(np_unique arr).indexOf e] := by
    intro e he
    have hmem : e ∈ np_unique arr := (np_unique_mem arr e).mpr he
    have hidx : (np_unique arr).indexOf e < (np_unique arr).length :=
      List.indexOf_lt_length.mpr hmem
    have hfilter : ((List.range (np_unique arr).length).filter fun i =>
        (np_unique arr).getD i 0 = e) = [(np_unique arr).indexOf e] := by
      apply filter_range_eq_single _ _ _ hidx
      intro i hi
      simp only [decide_eq_true_eq]
      rw [List.getD_eq_getElem _ _ hi]
      constructor
      · intro hel
        have h2 : (np_unique arr)[(np_unique arr).indexOf e] = e :=
          List.getElem_indexOf hidx
        exact ((np_unique_nodup arr).getElem_inj_iff).mp (hel.trans h2.symm)
      · rintro rfl
        exact List.getElem_indexOf hidx
    rw [hfilter, List.map_singleton, np_argsort_of_sorted _ (np_unique_sorted_lt arr),
      List.getD_eq_getElem _ _ (by simpa using hidx), List.getElem_range]
  show (arr.flatMap fun element =>
      (((List.range (np_unique arr).length).filter fun i =>
          (np_unique arr).getD i 0 = element).map
        fun i => (np_argsort (np_unique arr)).getD i 0)) = _
  rw [List.flatMap_congr hstep]
  exact List.flatMap_pure_eq_map _ _

theorem dedup_length_map_injOn {α β : Type} [DecidableEq α] [DecidableEq β] (f : α → β) :
    ∀ l : List α, (∀ x ∈ l, ∀ y ∈ l, f x = f y → x = y) →
      ((l.map f).dedup).length = l.dedup.length
  | [], _ => rfl
  | a :: l, hinj => by
    by_cases ha : a ∈ l
    · rw [List.map_cons, List.dedup_cons_of_mem (List.mem_map_of_mem f ha),
        List.dedup_cons_of_mem ha]
      exact dedup_length_map_injOn f l fun x hx y hy =>
        hinj x (List.mem_cons_of_mem a hx) y (List.mem_cons_of_mem a hy)
    · have hfa : f a ∉ l.map f := by
        intro hmem
        obtain ⟨x, hx, hfx⟩ := List.mem_map.mp hmem
        have hxa : x = a :=
          hinj x (List.mem_cons_of_mem a hx) a (List.mem_cons_self a l) hfx
        exact ha (hxa ▸ hx)
      rw [List.map_cons, List.dedup_cons_of_not_mem hfa, List.dedup_cons_of_not_mem ha,
        List.length_cons, List.length_cons,
        dedup_length_map_injOn f l fun x hx y hy =>
          hinj x (List.mem_cons_of_mem a hx) y (List.mem_cons_of_mem a hy)]

theorem indexOf_injOn_mem (u : List ℚ) :
    ∀ x, x ∈ u → ∀ y, y ∈ u → u.indexOf x = u.indexOf y → x = y := by
  intro x hx y hy hxy
  have hix : u.indexOf x < u.length := List.indexOf_lt_length.mpr hx
  have hiy : u.indexOf y < u.length := List.indexOf_lt_length.mpr hy
  calc x = u.getD (u.indexOf x) 0 := by
        rw [List.getD_eq_getElem _ _ hix]
        exact (List.getElem_indexOf hix).symm
  _ = u.getD (u.indexOf y) 0 := by rw [hxy]
  _ = y := by
        rw [List.getD_eq_getElem _ _ hiy]
        exact List.getElem_indexOf hiy

/-- C7: `get_ranks` maps every coordinate to the 0-based position of
its value in `np_unique arr`, the strictly ascending enumeration of
the distinct values of `arr`; hence the number of distinct ranks
equals the number of distinct coordinate values, and the raster image
dimensions are `distinct_x_count × distinct_y_count`. -/
theorem get_ranks_spec :
    (∀ arr : List ℚ,
      (np_unique arr).Sorted (· < ·) ∧
      (∀ a, a ∈ np_unique arr ↔ a ∈ arr) ∧
      get_ranks arr = (arr.map fun e => (np_unique arr).indexOf e) ∧
      (get_ranks arr).dedup.length = arr.dedup.length) ∧
    (∀ fractal_list : List (ℚ × ℚ × ℕ),
      (draw_fractal fractal_list).1 =
        ((fractal_list.map fun row => row.1).dedup.length,
         (fractal_list.map fun row => row.2.1).dedup.length)) := by
  have hcount : ∀ arr : List ℚ, (get_ranks arr).dedup.length = arr.dedup.length := by
    intro arr
    rw [get_ranks_eq_map_indexOf]
    exact dedup_length_map_injOn _ arr fun x hx y hy hxy =>
      indexOf_injOn_mem (np_unique arr)
        x ((np_unique_mem arr x).mpr hx) y ((np_unique_mem arr y).mpr hy) hxy
  refine ⟨fun arr => ⟨np_unique_sorted_lt arr, np_unique_mem arr,
    get_ranks_eq_map_indexOf arr, hcount arr⟩, ?_⟩
  intro fl
  show ((np_unique (get_ranks (fl.map fun row => row.1))).length,
      (np_unique (get_ranks (fl.map fun row => row.2.1))).length) = _
  rw [(np_unique_perm (get_ranks (fl.map fun row => row.1))).length_eq,
    (np_unique_perm (get_ranks (fl.map fun row => row.2.1))).length_eq,
    hcount, hcount]

/-! ### Rendering determinism -/

theorem np_unique_perm_eq {α : Type} [LinearOrder α] [DecidableEq α] {l₁ l₂ : List α}
    (h : l₁.Perm l₂) : np_unique l₁ = np_unique l₂ :=
  List.eq_of_perm_of_sorted
    ((np_unique_perm l₁).trans (h.dedup.trans (np_unique_perm l₂).symm))
    (np_unique_sorted l₁) (np_unique_sorted l₂)

theorem list_any_map {α β : Type} (f : α → β) (p : β → Bool) :
    ∀ l : List α, (l.map f).any p = l.any fun a => p (f a)
  | [] => rfl
  | a :: l => by
    rw [List.map_cons, List.any_cons, List.any_cons, list_any_map f p l]

theorem list_any_perm {α : Type} {l₁ l₂ : List α} (h : l₁.Perm l₂) (p : α → Bool) :
    l₁.any p = l₂.any p := by
  rw [Bool.eq_iff_iff, List.any_eq_true, List.any_eq_true]
  constructor
  · rintro ⟨a, ha, hpa⟩
    exact ⟨a, h.mem_iff.mp ha, hpa⟩
  · rintro ⟨a, ha, hpa⟩
    exact ⟨a, h.mem_iff.mpr ha, hpa⟩

theorem draw_fractal_def (fractal_list : List (ℚ × ℚ × ℕ)) :
    draw_fractal fractal_list =
      (((np_unique (get_ranks (fractal_list.map fun row => row.1))).length,
        (np_unique (get_ranks (fractal_list.map fun row => row.2.1))).length),
        fun p => (((get_ranks (fractal_list.map fun row => row.1)).zip
            (get_ranks (fractal_list.map fun row => row.2.1))).zip
            (fractal_list.map fun row => row.2.2)).any
          fun row => row.2 ≠ 0 ∧ row.1 = p) :=
  rfl

/-- C8: `draw_fractal` is invariant under any permutation of the
flattened classification list: it produces the same image dimensions
and the same color at every pixel, so rendering is deterministic for a
fixed Result Collection regardless of the order in which bands were
produced or flattened. -/
theorem draw_fractal_perm_invariant (l₁ l₂ : List (ℚ × ℚ × ℕ)) (h : l₁.Perm l₂) :
    draw_fractal l₁ = draw_fractal l₂ := by
  have hx : (l₁.map fun row => row.1).Perm (l₂.map fun row => row.1) := h.map _
  have hy : (l₁.map fun row => row.2.1).Perm (l₂.map fun row => row.2.1) := h.map _
  have hux := np_unique_perm_eq hx
  have huy := np_unique_perm_eq hy
  have hr₁ := get_ranks_eq_map_indexOf (l₁.map fun row => row.1)
  have hr₂ := get_ranks_eq_map_indexOf (l₂.map fun row => row.1)
  have hs₁ := get_ranks_eq_map_indexOf (l₁.map fun row => row.2.1)
  have hs₂ := get_ranks_eq_map_indexOf (l₂.map fun row => row.2.1)
  rw [← hux] at hr₂
  rw [← huy] at hs₂
  rw [draw_fractal_def, draw_fractal_def, hr₁, hr₂, hs₁, hs₂,
    List.map_map, List.map_map, List.map_map, List.map_map,
    List.zip_map', List.zip_map', List.zip_map', List.zip_map']
  congr 1
  · congr 1
    · exact congrArg List.length (np_unique_perm_eq (h.map _))
    · exact congrArg List.length (np_unique_perm_eq (h.map _))
  · funext p
    rw [list_any_map, list_any_map]
    exact list_any_perm h _

theorem draw_fractal_perm_invariant_witness :
    ([((0 : ℚ), (0 : ℚ), (1 : ℕ)), (1, 0, 0)]).Perm
      [((1 : ℚ), (0 : ℚ), (0 : ℕ)), (0, 0, 1)] ∧
    draw_fractal [((0 : ℚ), (0 : ℚ), (1 : ℕ)), (1, 0, 0)] =
      draw_fractal [((1 : ℚ), (0 : ℚ), (0 : ℕ)), (0, 0, 1)] :=
  ⟨List.Perm.swap _ _ _,
    draw_fractal_perm_invariant _ _ (List.Perm.swap _ _ _)⟩

end Mandelbrot
